import Mathlib

/-!
Shallow embedding of the OpenMP task-scheduler project
(src/task_scheduler.{h,c}, src/benchmark.c, src/workloads.c).

Machine integers of the C code are modelled by Nat/Int; the wall-clock
timestamps taken by get_time_ns are outside the model (no claim depends on
their values), so the metric fields that accumulate them are carried but not
given timing semantics.  A C function pointer together with its void* argument
is modelled by an opaque payload of type alpha.
-/

namespace MPPSched

/-- TaskWeight enum of task_scheduler.h. -/
inductive TaskWeight
  | TASK_LIGHT
  | TASK_MEDIUM
  | TASK_HEAVY
deriving DecidableEq, Repr

/-- Task struct of task_scheduler.h; the func/arg pair is the payload arg. -/
structure Task (α : Type) where
  arg : α
  weight : TaskWeight
  id : Nat
deriving DecidableEq, Repr

/-- ScheduleMode enum of task_scheduler.h. -/
inductive ScheduleMode
  | SCHEDULE_STATIC
  | SCHEDULE_DYNAMIC
  | SCHEDULE_GUIDED
  | SCHEDULE_HETEROGENEOUS
  | SCHEDULE_ADAPTIVE
deriving DecidableEq, Repr

/-- TaskScheduler struct of task_scheduler.h.  The malloc-ed task_queue array
of capacity slots is a list of length capacity whose cells are None until
written, and the RuntimeMetrics struct is inlined (timing accumulators carried
without timing semantics). -/
structure TaskScheduler (α : Type) where
  task_queue : List (Option (Task α))
  capacity : Nat
  head : Nat
  tail : Nat
  active_tasks : Int
  num_threads : Nat
  mode : ScheduleMode
  tasks_completed : Nat
  total_exec_time_ns : Nat
  idle_time_ns : Nat
  queue_accesses : Nat
  running : Bool

/-- scheduler_init of task_scheduler.c. -/
def scheduler_init (α : Type) (num_threads capacity : Nat) (mode : ScheduleMode) :
    TaskScheduler α where
  task_queue := List.replicate capacity none
  capacity := capacity
  head := 0
  tail := 0
  active_tasks := 0
  num_threads := num_threads
  mode := mode
  tasks_completed := 0
  total_exec_time_ns := 0
  idle_time_ns := 0
  queue_accesses := 0
  running := false

/-- scheduler_submit of task_scheduler.c: writes slot tail % capacity with a
task whose id is the current tail, then increments tail and active_tasks.
There is no capacity check in the source. -/
def scheduler_submit (s : TaskScheduler α) (arg : α) (weight : TaskWeight) :
    TaskScheduler α :=
  { s with
    task_queue := s.task_queue.set (s.tail % s.capacity)
      (some { arg := arg, weight := weight, id := s.tail }),
    tail := s.tail + 1,
    active_tasks := s.active_tasks + 1 }

/-- A sequence of scheduler_submit calls, in order. -/
def submit_batch (s : TaskScheduler α) (l : List (α × TaskWeight)) :
    TaskScheduler α :=
  l.foldl (fun s x => scheduler_submit s x.1 x.2) s

theorem submit_batch_cons (s : TaskScheduler α) (x : α × TaskWeight)
    (xs : List (α × TaskWeight)) :
    submit_batch s (x :: xs) = submit_batch (scheduler_submit s x.1 x.2) xs := rfl

theorem submit_batch_append (s : TaskScheduler α) (l : List (α × TaskWeight)) (x : α × TaskWeight) :
    submit_batch s (l ++ [x]) = scheduler_submit (submit_batch s l) x.1 x.2 := by
  simp [submit_batch, List.foldl_append]

theorem tail_submit_batch (l : List (α × TaskWeight)) (s : TaskScheduler α) :
    (submit_batch s l).tail = s.tail + l.length := by
  induction l generalizing s with
  | nil => rfl
  | cons x xs ih =>
    rw [submit_batch_cons, ih]
    simp only [scheduler_submit, List.length_cons]
    omega

theorem capacity_submit_batch (l : List (α × TaskWeight)) (s : TaskScheduler α) :
    (submit_batch s l).capacity = s.capacity := by
  induction l generalizing s with
  | nil => rfl
  | cons x xs ih => rw [submit_batch_cons, ih]; rfl

theorem queue_length_submit_batch (l : List (α × TaskWeight)) (s : TaskScheduler α) :
    (submit_batch s l).task_queue.length = s.task_queue.length := by
  induction l generalizing s with
  | nil => rfl
  | cons x xs ih =>
    rw [submit_batch_cons, ih]
    simp [scheduler_submit]

theorem mode_submit_batch (l : List (α × TaskWeight)) (s : TaskScheduler α) :
    (submit_batch s l).mode = s.mode := by
  induction l generalizing s with
  | nil => rfl
  | cons x xs ih => rw [submit_batch_cons, ih]; rfl

theorem num_threads_submit_batch (l : List (α × TaskWeight)) (s : TaskScheduler α) :
    (submit_batch s l).num_threads = s.num_threads := by
  induction l generalizing s with
  | nil => rfl
  | cons x xs ih => rw [submit_batch_cons, ih]; rfl

/-- Within capacity, every submitted task lands in the slot of its submission
index with id equal to that index. -/
theorem submit_batch_slots (l : List (α × TaskWeight)) (W cap : Nat)
    (mode : ScheduleMode) (hcap : l.length ≤ cap) :
    ∀ i (hi : i < l.length),
      (submit_batch (scheduler_init α W cap mode) l).task_queue[i]? =
        some (some { arg := (l.get ⟨i, hi⟩).1, weight := (l.get ⟨i, hi⟩).2, id := i }) := by
  induction l using List.reverseRecOn with
  | nil => intro i hi; simp at hi
  | append_singleton xs x ih =>
    intro i hi
    rw [submit_batch_append]
    have hxs : xs.length ≤ cap := by
      simp at hcap; omega
    have htail : (submit_batch (scheduler_init α W cap mode) xs).tail = xs.length := by
      rw [tail_submit_batch]; simp [scheduler_init]
    have hcapeq : (submit_batch (scheduler_init α W cap mode) xs).capacity = cap := by
      rw [capacity_submit_batch]; rfl
    have hqlen : (submit_batch (scheduler_init α W cap mode) xs).task_queue.length = cap := by
      rw [queue_length_submit_batch]; simp [scheduler_init]
    have hlen : xs.length < cap := by
      simp at hcap; omega
    simp only [scheduler_submit, htail, hcapeq]
    rw [Nat.mod_eq_of_lt hlen]
    simp only [List.length_append, List.length_cons, List.length_nil] at hi
    rcases Nat.lt_or_ge i xs.length with hilt | hige
    · rw [List.getElem?_set_ne (by omega)]
      have := ih hxs i hilt
      rw [this]
      have hget : (xs ++ [x]).get ⟨i, by simpa using hi⟩ = xs.get ⟨i, hilt⟩ := by
        simp [List.get_eq_getElem, List.getElem_append_left hilt]
      rw [hget]
    · have hieq : i = xs.length := by omega
      subst hieq
      rw [List.getElem?_set_self (by rw [hqlen]; omega)]
      have hget : (xs ++ [x]).get ⟨xs.length, by simp⟩ = x := by
        simp [List.get_eq_getElem, List.getElem_append_right (Nat.le_refl xs.length)]
      rw [hget]

/-- The tasks a run reads: slots 0 .. tail-1 of the queue array (all execute
loops of task_scheduler.c walk task_queue[i] for i < tail). -/
def queue_tasks (s : TaskScheduler α) : List (Task α) :=
  (s.task_queue.take s.tail).reduceOption

/-- The id each slot holds (None when the slot is unwritten or out of range). -/
def slot_id (s : TaskScheduler α) (i : Nat) : Option Nat :=
  match s.task_queue[i]? with
  | some (some t) => some t.id
  | _ => none

/-- The task values a list of submissions denotes, ids starting at i. -/
def tasks_from (i : Nat) : List (α × TaskWeight) → List (Task α)
  | [] => []
  | x :: xs => { arg := x.1, weight := x.2, id := i } :: tasks_from (i + 1) xs

/-- The task values a list of submissions denotes, ids 0 .. n-1. -/
def tasks_of (l : List (α × TaskWeight)) : List (Task α) := tasks_from 0 l

theorem length_tasks_from (i : Nat) (l : List (α × TaskWeight)) :
    (tasks_from i l : List (Task α)).length = l.length := by
  induction l generalizing i with
  | nil => rfl
  | cons x xs ih => simp [tasks_from, ih]

theorem getElem?_tasks_from (i j : Nat) (l : List (α × TaskWeight)) :
    (tasks_from i l : List (Task α))[j]? =
      l[j]?.map (fun x => { arg := x.1, weight := x.2, id := i + j }) := by
  induction l generalizing i j with
  | nil => simp [tasks_from]
  | cons x xs ih =>
    cases j with
    | zero => simp [tasks_from]
    | succ j =>
      simp only [tasks_from, List.getElem?_cons_succ, ih]
      have : i + 1 + j = i + (j + 1) := by omega
      rw [this]

theorem reduceOption_map_some_eq (l : List β) : (l.map some).reduceOption = l := by
  induction l with
  | nil => rfl
  | cons x xs ih => simp [List.reduceOption_cons_of_some, ih]

/-- Within capacity, the live region of the queue is exactly the submitted
tasks in submission order with ids 0 .. n-1. -/
theorem queue_tasks_submit_batch (l : List (α × TaskWeight)) (W cap : Nat)
    (mode : ScheduleMode) (hcap : l.length ≤ cap) :
    queue_tasks (submit_batch (scheduler_init α W cap mode) l) = tasks_of l := by
  set s := submit_batch (scheduler_init α W cap mode) l with hs
  have htail : s.tail = l.length := by
    rw [hs, tail_submit_batch]; simp [scheduler_init]
  have hqlen : s.task_queue.length = cap := by
    rw [hs, queue_length_submit_batch]; simp [scheduler_init]
  have htake : s.task_queue.take s.tail = (tasks_of l).map some := by
    apply List.ext_getElem?
    intro n
    rw [List.getElem?_take]
    rw [htail]
    rw [List.getElem?_map]
    rw [show tasks_of l = tasks_from 0 l from rfl, getElem?_tasks_from]
    split
    · next hn =>
      rw [submit_batch_slots l W cap mode hcap n hn]
      have : l[n]? = some (l.get ⟨n, hn⟩) := by
        simp [List.getElem?_eq_getElem hn]
      rw [this]
      simp
    · next hn =>
      have : l[n]? = none := by
        rw [List.getElem?_eq_none]; omega
      rw [this]
      simp
  rw [queue_tasks, htake, reduceOption_map_some_eq]

/-!  Claim C2.  scheduler_submit has no capacity check: submitting to a full
queue silently wraps via tail % capacity and overwrites the earliest task.
The spec (section 9 of spec.md) itself flags this as a latent defect and
mandates a CapacityError instead, so the code, not the claim, is wrong. -/

/-- Claim C2 (code bug witness): with capacity 1, a second submit does not
fail; it wraps around and replaces the task of id 0 by the task of id 1,
mutating the existing queue contents. -/
theorem submit_overwrite_at_capacity :
    (submit_batch (scheduler_init Nat 1 1 ScheduleMode.SCHEDULE_DYNAMIC)
        [(10, TaskWeight.TASK_LIGHT)]).task_queue =
      [some { arg := 10, weight := TaskWeight.TASK_LIGHT, id := 0 }] ∧
    (submit_batch (scheduler_init Nat 1 1 ScheduleMode.SCHEDULE_DYNAMIC)
        [(10, TaskWeight.TASK_LIGHT), (20, TaskWeight.TASK_MEDIUM)]).task_queue =
      [some { arg := 20, weight := TaskWeight.TASK_MEDIUM, id := 1 }] ∧
    (submit_batch (scheduler_init Nat 1 1 ScheduleMode.SCHEDULE_DYNAMIC)
        [(10, TaskWeight.TASK_LIGHT), (20, TaskWeight.TASK_MEDIUM)]).tail = 2 := by
  decide

/-- Claim C8 counterexample: with capacity 1 and two submissions (n = 2,
exceeding capacity), it is false that every slot i in [0, n) holds a task of
id i: slot 0 holds the task of id 1 and slot 1 does not exist. -/
theorem submit_ids_wrap_counterexample :
    ¬ (∀ i, i < 2 →
        slot_id (submit_batch (scheduler_init Nat 1 1 ScheduleMode.SCHEDULE_DYNAMIC)
          [(10, TaskWeight.TASK_LIGHT), (20, TaskWeight.TASK_MEDIUM)]) i = some i) := by
  decide

/-- Claim C8 (amended): after any sequence of n submissions to a freshly
initialized queue with n at most the capacity, the stored task ids are dense
and equal to submission order: slot i holds the i-th submitted task with
id i, for every i in [0, n). -/
theorem submit_ids_dense_within_capacity (l : List (α × TaskWeight)) (W cap : Nat)
    (mode : ScheduleMode) (hcap : l.length ≤ cap) (i : Nat) (hi : i < l.length) :
    slot_id (submit_batch (scheduler_init α W cap mode) l) i = some i := by
  unfold slot_id
  rw [submit_batch_slots l W cap mode hcap i hi]

/-- Witness for the amended Claim C8 at a concrete input. -/
theorem submit_ids_dense_within_capacity_witness :
    slot_id (submit_batch (scheduler_init Nat 4 3 ScheduleMode.SCHEDULE_STATIC)
      [(5, TaskWeight.TASK_LIGHT), (6, TaskWeight.TASK_HEAVY)]) 1 = some 1 :=
  submit_ids_dense_within_capacity
    [(5, TaskWeight.TASK_LIGHT), (6, TaskWeight.TASK_HEAVY)] 4 3
    ScheduleMode.SCHEDULE_STATIC (by decide) 1 (by decide)

/-!  Static policy (execute_task_static of task_scheduler.c).  Each of the
nthreads workers owns the contiguous index range [start, end) computed below;
the parallel region is modelled by listing the tasks executed, worker 0 first.
-/

/-- chunk_size of execute_task_static: the C idiom (total + nthreads - 1) /
nthreads for ceil(total / nthreads). -/
def static_chunk (total nthreads : Nat) : Nat := (total + nthreads - 1) / nthreads

/-- start of execute_task_static for thread tid. -/
def static_start (total nthreads tid : Nat) : Nat := tid * static_chunk total nthreads

/-- end of execute_task_static for thread tid:
(start + chunk_size > total) ? total : start + chunk_size. -/
def static_stop (total nthreads tid : Nat) : Nat :=
  min (static_start total nthreads tid + static_chunk total nthreads) total

/-- The index range [start, end) owned by worker tid under the Static policy. -/
def static_range (total nthreads tid : Nat) : Finset Nat :=
  Finset.Ico (static_start total nthreads tid) (static_stop total nthreads tid)

/-- The tasks executed under the Static policy, in worker order: worker tid
runs the loop for (i = start; i < end; i++) over task_queue. -/
def execute_task_static (q : List (Task α)) (nthreads : Nat) : List (Task α) :=
  (List.range nthreads).flatMap fun tid =>
    (q.take (static_stop q.length nthreads tid)).drop (static_start q.length nthreads tid)

theorem static_chunk_cover (total nthreads : Nat) (h : 1 ≤ nthreads) :
    total ≤ nthreads * static_chunk total nthreads := by
  unfold static_chunk
  have hd := Nat.div_add_mod (total + nthreads - 1) nthreads
  have hm : (total + nthreads - 1) % nthreads < nthreads := Nat.mod_lt _ (by omega)
  omega

theorem static_chunk_pos (total nthreads : Nat) (h : 1 ≤ nthreads) (ht : 1 ≤ total) :
    1 ≤ static_chunk total nthreads := by
  unfold static_chunk
  rw [Nat.le_div_iff_mul_le (by omega)]
  omega

theorem mem_static_range (total nthreads tid i : Nat) :
    i ∈ static_range total nthreads tid ↔
      static_start total nthreads tid ≤ i ∧
      i < static_start total nthreads tid + static_chunk total nthreads ∧ i < total := by
  unfold static_range static_stop
  rw [Finset.mem_Ico]
  omega

/-- Claim C4: under the Static policy the per-worker index ranges
[w * chunk, min((w+1) * chunk, len)) with chunk = ceil(len / num_threads) are
pairwise disjoint and their union over the num_threads workers is exactly
[0, len), so every task index is owned by exactly one worker. -/
theorem static_ranges_partition (len nthreads : Nat) (h : 1 ≤ nthreads) :
    (∀ w1 w2, w1 ≠ w2 →
        Disjoint (static_range len nthreads w1) (static_range len nthreads w2)) ∧
    (Finset.range nthreads).biUnion (static_range len nthreads) = Finset.range len ∧
    (∀ i, i < len → ∃! w, w < nthreads ∧ i ∈ static_range len nthreads w) := by
  set c := static_chunk len nthreads with hc
  have hmem : ∀ w i, i ∈ static_range len nthreads w ↔ w * c ≤ i ∧ i < w * c + c ∧ i < len := by
    intro w i; exact mem_static_range len nthreads w i
  have huniq : ∀ w1 w2 i, i ∈ static_range len nthreads w1 →
      i ∈ static_range len nthreads w2 → w1 = w2 := by
    intro w1 w2 i h1 h2
    rw [hmem] at h1 h2
    have hcpos : 0 < c := by
      have := static_chunk_pos len nthreads h (by omega)
      omega
    have e1 : i / c = w1 := Nat.div_eq_of_lt_le (by omega) (by
      have : (w1 + 1) * c = w1 * c + c := by ring
      omega)
    have e2 : i / c = w2 := Nat.div_eq_of_lt_le (by omega) (by
      have : (w2 + 1) * c = w2 * c + c := by ring
      omega)
    omega
  have hexists : ∀ i, i < len → i / c < nthreads ∧ i ∈ static_range len nthreads (i / c) := by
    intro i hi
    have hcpos : 0 < c := by
      have := static_chunk_pos len nthreads h (by omega)
      omega
    have hcover := static_chunk_cover len nthreads h
    constructor
    · rw [Nat.div_lt_iff_lt_mul hcpos]
      calc i < len := hi
        _ ≤ nthreads * c := hcover
    · rw [hmem]
      refine ⟨Nat.div_mul_le_self i c, ?_, hi⟩
      have hd := Nat.div_add_mod i c
      have hm : i % c < c := Nat.mod_lt _ hcpos
      have : i / c * c = c * (i / c) := by ring
      omega
  refine ⟨?_, ?_, ?_⟩
  · intro w1 w2 hne
    rw [Finset.disjoint_left]
    intro i h1 h2
    exact hne (huniq w1 w2 i h1 h2)
  · ext i
    rw [Finset.mem_biUnion]
    constructor
    · rintro ⟨w, _, hw⟩
      rw [hmem] at hw
      rw [Finset.mem_range]
      exact hw.2.2
    · intro hi
      rw [Finset.mem_range] at hi
      obtain ⟨hwlt, hwin⟩ := hexists i hi
      exact ⟨i / c, Finset.mem_range.mpr hwlt, hwin⟩
  · intro i hi
    obtain ⟨hwlt, hwin⟩ := hexists i hi
    refine ⟨i / c, ⟨hwlt, hwin⟩, ?_⟩
    intro w hw
    exact huniq w (i / c) i hw.2 hwin

/-- Witness for Claim C4 at a concrete input: 10 tasks across 3 workers. -/
theorem static_ranges_partition_witness :
    (10 : Nat) ∈ (Finset.range 3).biUnion (static_range 11 3) := by
  have hpart := static_ranges_partition 11 3 (by decide)
  rw [hpart.2.1]
  decide

/-- Worker ranges are consecutive slices: concatenating the executed slices of
workers 0 .. k-1 yields the first min(k * chunk, total) tasks. -/
theorem execute_task_static_concat (q : List (Task α)) (nthreads : Nat) (k : Nat) :
    ((List.range k).flatMap fun tid =>
        (q.take (static_stop q.length nthreads tid)).drop
          (static_start q.length nthreads tid)) =
      q.take (min (k * static_chunk q.length nthreads) q.length) := by
  induction k with
  | zero => simp
  | succ k ih =>
    rw [List.range_succ, List.flatMap_append, ih]
    set c := static_chunk q.length nthreads with hc
    simp only [List.flatMap_cons, List.flatMap_nil, List.append_nil]
    unfold static_stop static_start
    rcases Nat.le_total q.length (k * c) with hge | hle
    · have h1 : min (k * c) q.length = q.length := by omega
      have h2 : min ((k + 1) * c) q.length = q.length := by
        have : (k + 1) * c = k * c + c := by ring
        omega
      have h3 : min (k * c + c) q.length = q.length := by omega
      rw [h1, h2, h3, List.take_of_length_le (Nat.le_refl _)]
      have hdrop : q.drop (k * c) = [] := List.drop_eq_nil_of_le (by omega)
      rw [hdrop, List.append_nil]
    · have h1 : min (k * c) q.length = k * c := by omega
      have h2 : (k + 1) * c = k * c + c := by ring
      rw [h1, h2]
      have hle2 : k * c ≤ min (k * c + c) q.length := by omega
      have htt : q.take (k * c) = (q.take (min (k * c + c) q.length)).take (k * c) := by
        rw [List.take_take]
        congr 1
        omega
      rw [htt, List.take_append_drop]

/-- Under the Static policy every queued task is executed exactly once, in
index order: the concatenation of all workers' chunks is the queue itself. -/
theorem execute_task_static_eq (q : List (Task α)) (nthreads : Nat) (h : 1 ≤ nthreads) :
    execute_task_static q nthreads = q := by
  unfold execute_task_static
  rw [execute_task_static_concat]
  have := static_chunk_cover q.length nthreads h
  have hmin : min (nthreads * static_chunk q.length nthreads) q.length = q.length := by
    omega
  rw [hmin, List.take_of_length_le (Nat.le_refl _)]

/-!  Heterogeneous policy, Phase 1 (execute_task_heterogeneous of
task_scheduler.c): a counting pass computes light_count / medium_count /
heavy_count with an if / else-if / else on the weight, then a placement pass
copies each task into a malloc-ed buffer sorted of size total at one of three
cursors light_idx (from 0), medium_idx (from light_count), heavy_idx (from
light_count + medium_count). -/

/-- The test of the first branch: weight == TASK_LIGHT. -/
def branch_light (t : Task α) : Bool := t.weight == TaskWeight.TASK_LIGHT

/-- The test of the second branch: weight == TASK_MEDIUM. -/
def branch_medium (t : Task α) : Bool := t.weight == TaskWeight.TASK_MEDIUM

/-- The final else branch: neither light nor medium. -/
def branch_heavy (t : Task α) : Bool := !branch_light t && !branch_medium t

def light_count (q : List (Task α)) : Nat := q.countP branch_light

def medium_count (q : List (Task α)) : Nat := q.countP branch_medium

def heavy_count (q : List (Task α)) : Nat := q.countP branch_heavy

def light_tasks (q : List (Task α)) : List (Task α) := q.filter branch_light

def medium_tasks (q : List (Task α)) : List (Task α) := q.filter branch_medium

def heavy_tasks (q : List (Task α)) : List (Task α) := q.filter branch_heavy

/-- Cursor state of the placement pass. -/
structure StratState (α : Type) where
  sorted : List (Option (Task α))
  light_idx : Nat
  medium_idx : Nat
  heavy_idx : Nat

/-- One iteration of the placement loop. -/
def strat_place (st : StratState α) (t : Task α) : StratState α :=
  if branch_light t then
    { st with sorted := st.sorted.set st.light_idx (some t),
              light_idx := st.light_idx + 1 }
  else if branch_medium t then
    { st with sorted := st.sorted.set st.medium_idx (some t),
              medium_idx := st.medium_idx + 1 }
  else
    { st with sorted := st.sorted.set st.heavy_idx (some t),
              heavy_idx := st.heavy_idx + 1 }

/-- Phase 1 of execute_task_heterogeneous: the reordered buffer. -/
def stratify_sorted (q : List (Task α)) : List (Option (Task α)) :=
  (q.foldl strat_place
    { sorted := List.replicate q.length none,
      light_idx := 0,
      medium_idx := light_count q,
      heavy_idx := light_count q + medium_count q }).sorted

theorem counts_partition (q : List (Task α)) :
    light_count q + medium_count q + heavy_count q = q.length := by
  induction q with
  | nil => rfl
  | cons t ts ih =>
    simp only [light_count, medium_count, heavy_count, List.countP_cons,
      List.length_cons] at *
    by_cases hL : branch_light t
    · have hM : branch_medium t = false := by
        have := of_decide_eq_true (by simpa [branch_light] using hL)
        simp [branch_medium, this]
      simp [hL, hM, branch_heavy] at *
      omega
    · by_cases hM : branch_medium t
      · simp [hL, hM, branch_heavy] at *
        omega
      · simp [hL, hM, branch_heavy] at *
        omega

theorem take_set_of_le (l : List β) (n m : Nat) (a : β) (h : m ≤ n) :
    (l.set n a).take m = l.take m := by
  rw [List.set_take, List.set_eq_of_length_le]
  rw [List.length_take]
  omega

theorem set_take_succ (l : List β) (i : Nat) (a : β) (h : i < l.length) :
    (l.set i a).take (i + 1) = l.take i ++ [a] := by
  have h2 : i < (l.set i a).length := by simpa using h
  rw [← List.take_concat_get (l.set i a) i h2, List.concat_eq_append]
  congr 1
  · exact take_set_of_le l i i a (Nat.le_refl i)
  · rw [List.getElem_set_self h2]

/-- Invariant of the placement loop: processing rest from a state reached
after the prefix p keeps the three buffer regions equal to the filtered
subsequences of the processed part, in order. -/
theorem strat_fold_inv (L M total : Nat) (rest : List (Task α)) :
    ∀ (p : List (Task α)) (st : StratState α),
      total = p.length + rest.length →
      L = light_count (p ++ rest) →
      M = medium_count (p ++ rest) →
      st.sorted.length = total →
      st.light_idx = light_count p →
      st.medium_idx = L + medium_count p →
      st.heavy_idx = L + M + heavy_count p →
      st.sorted.take (light_count p) = (light_tasks p).map some →
      (st.sorted.drop L).take (medium_count p) = (medium_tasks p).map some →
      (st.sorted.drop (L + M)).take (heavy_count p) = (heavy_tasks p).map some →
      ((rest.foldl strat_place st).sorted.length = total ∧
       (rest.foldl strat_place st).sorted.take (light_count (p ++ rest)) =
         (light_tasks (p ++ rest)).map some ∧
       ((rest.foldl strat_place st).sorted.drop L).take (medium_count (p ++ rest)) =
         (medium_tasks (p ++ rest)).map some ∧
       ((rest.foldl strat_place st).sorted.drop (L + M)).take (heavy_count (p ++ rest)) =
         (heavy_tasks (p ++ rest)).map some) := by
  induction rest with
  | nil =>
    intro p st h1 h2 h3 h4 h5 h6 h7 h8 h9 h10
    simp only [List.foldl_nil, List.append_nil]
    exact ⟨h4, h8, h9, h10⟩
  | cons t ts ih =>
    intro p st h1 h2 h3 h4 h5 h6 h7 h8 h9 h10
    have happ : p ++ t :: ts = (p ++ [t]) ++ ts := by simp
    rw [List.foldl_cons]
    rw [happ] at h2 h3 ⊢
    have htot : total = p.length + (ts.length + 1) := by simpa using h1
    have hlenfull : ((p ++ [t]) ++ ts).length = total := by simp; omega
    have hLM : L + M + heavy_count ((p ++ [t]) ++ ts) = total := by
      rw [h2, h3, ← hlenfull]
      exact counts_partition _
    have hHts : heavy_count ((p ++ [t]) ++ ts) =
        heavy_count (p ++ [t]) + heavy_count ts := by
      simp [heavy_count, List.countP_append, List.countP_cons]
      omega
    have hLts : L = light_count (p ++ [t]) + light_count ts := by
      rw [h2]; simp [light_count, List.countP_append, List.countP_cons]
      omega
    have hMts : M = medium_count (p ++ [t]) + medium_count ts := by
      rw [h3]; simp [medium_count, List.countP_append, List.countP_cons]
      omega
    by_cases hL : branch_light t
    · -- light branch of the placement loop
      have hwt : t.weight = TaskWeight.TASK_LIGHT := by
        have := hL
        simp [branch_light] at this
        exact this
      have hMf : branch_medium t = false := by simp [branch_medium, hwt]
      have hHf : branch_heavy t = false := by simp [branch_heavy, hL]
      have hcl : light_count (p ++ [t]) = light_count p + 1 := by
        simp [light_count, List.countP_append, List.countP_cons, hL]
      have hcm : medium_count (p ++ [t]) = medium_count p := by
        simp [medium_count, List.countP_append, List.countP_cons, hMf]
      have hch : heavy_count (p ++ [t]) = heavy_count p := by
        simp [heavy_count, List.countP_append, List.countP_cons, hHf]
      have hsorted2 : (strat_place st t).sorted =
          st.sorted.set (light_count p) (some t) := by
        simp [strat_place, hL, h5]
      have hli2 : (strat_place st t).light_idx = light_count p + 1 := by
        simp [strat_place, hL, h5]
      have hmi2 : (strat_place st t).medium_idx = L + medium_count p := by
        simp [strat_place, hL, h6]
      have hhi2 : (strat_place st t).heavy_idx = L + M + heavy_count p := by
        simp [strat_place, hL, h7]
      have hidx : light_count p < st.sorted.length := by
        have : light_count p ≤ p.length := List.countP_le_length _
        rw [h4]; omega
      apply ih (p ++ [t]) (strat_place st t)
      · simp; omega
      · exact h2
      · exact h3
      · rw [hsorted2]; simpa using h4
      · rw [hli2, hcl]
      · rw [hmi2, hcm]
      · rw [hhi2, hch]
      · rw [hsorted2, hcl, set_take_succ st.sorted (light_count p) (some t) hidx, h8]
        simp [light_tasks, List.filter_append, hL]
      · rw [hsorted2, hcm,
          List.drop_set_of_lt _ _ (show light_count p < L by omega), h9]
        simp [medium_tasks, List.filter_append, hMf]
      · rw [hsorted2, hch,
          List.drop_set_of_lt _ _ (show light_count p < L + M by omega), h10]
        simp [heavy_tasks, List.filter_append, hHf]
    · by_cases hM2 : branch_medium t
      · -- medium branch of the placement loop
        have hLf : branch_light t = false := by simpa using hL
        have hwt : t.weight = TaskWeight.TASK_MEDIUM := by
          have := hM2
          simp [branch_medium] at this
          exact this
        have hHf : branch_heavy t = false := by simp [branch_heavy, hM2]
        have hcl : light_count (p ++ [t]) = light_count p := by
          simp [light_count, List.countP_append, List.countP_cons, hLf]
        have hcm : medium_count (p ++ [t]) = medium_count p + 1 := by
          simp [medium_count, List.countP_append, List.countP_cons, hM2]
        have hch : heavy_count (p ++ [t]) = heavy_count p := by
          simp [heavy_count, List.countP_append, List.countP_cons, hHf]
        have hsorted2 : (strat_place st t).sorted =
            st.sorted.set (L + medium_count p) (some t) := by
          simp [strat_place, hLf, hM2, h6]
        have hli2 : (strat_place st t).light_idx = light_count p := by
          simp [strat_place, hLf, hM2, h5]
        have hmi2 : (strat_place st t).medium_idx = L + medium_count p + 1 := by
          simp [strat_place, hLf, hM2, h6]
        have hhi2 : (strat_place st t).heavy_idx = L + M + heavy_count p := by
          simp [strat_place, hLf, hM2, h7]
        have hdlen : (st.sorted.drop L).length = total - L := by
          rw [List.length_drop, h4]
        have hmidx : medium_count p < (st.sorted.drop L).length := by
          rw [hdlen]; omega
        apply ih (p ++ [t]) (strat_place st t)
        · simp; omega
        · exact h2
        · exact h3
        · rw [hsorted2]; simpa using h4
        · rw [hli2, hcl]
        · rw [hmi2, hcm]; omega
        · rw [hhi2, hch]
        · rw [hsorted2, hcl,
            take_set_of_le _ _ _ _ (show light_count p ≤ L + medium_count p by omega),
            h8]
          simp [light_tasks, List.filter_append, hLf]
        · rw [hsorted2, hcm, ← List.set_drop,
            set_take_succ _ _ _ hmidx, h9]
          simp [medium_tasks, List.filter_append, hM2]
        · rw [hsorted2, hch,
            List.drop_set_of_lt _ _ (show L + medium_count p < L + M by omega), h10]
          simp [heavy_tasks, List.filter_append, hHf]
      · -- heavy (else) branch of the placement loop
        have hLf : branch_light t = false := by simpa using hL
        have hMf : branch_medium t = false := by simpa using hM2
        have hHt : branch_heavy t = true := by simp [branch_heavy, hLf, hMf]
        have hcl : light_count (p ++ [t]) = light_count p := by
          simp [light_count, List.countP_append, List.countP_cons, hLf]
        have hcm : medium_count (p ++ [t]) = medium_count p := by
          simp [medium_count, List.countP_append, List.countP_cons, hMf]
        have hch : heavy_count (p ++ [t]) = heavy_count p + 1 := by
          simp [heavy_count, List.countP_append, List.countP_cons, hHt]
        have hsorted2 : (strat_place st t).sorted =
            st.sorted.set (L + M + heavy_count p) (some t) := by
          simp [strat_place, hLf, hMf, h7]
        have hli2 : (strat_place st t).light_idx = light_count p := by
          simp [strat_place, hLf, hMf, h5]
        have hmi2 : (strat_place st t).medium_idx = L + medium_count p := by
          simp [strat_place, hLf, hMf, h6]
        have hhi2 : (strat_place st t).heavy_idx = L + M + heavy_count p + 1 := by
          simp [strat_place, hLf, hMf, h7]
        have hdlen : (st.sorted.drop (L + M)).length = total - (L + M) := by
          rw [List.length_drop, h4]
        have hhidx : heavy_count p < (st.sorted.drop (L + M)).length := by
          rw [hdlen]; omega
        apply ih (p ++ [t]) (strat_place st t)
        · simp; omega
        · exact h2
        · exact h3
        · rw [hsorted2]; simpa using h4
        · rw [hli2, hcl]
        · rw [hmi2, hcm]
        · rw [hhi2, hch]; omega
        · rw [hsorted2, hcl,
            take_set_of_le _ _ _ _ (show light_count p ≤ L + M + heavy_count p by omega),
            h8]
          simp [light_tasks, List.filter_append, hLf]
        · rw [hsorted2, hcm,
            show L + M + heavy_count p = L + (M + heavy_count p) by omega,
            ← List.set_drop,
            take_set_of_le _ _ _ _ (show medium_count p ≤ M + heavy_count p by omega),
            h9]
          simp [medium_tasks, List.filter_append, hMf]
        · rw [hsorted2, hch, ← List.set_drop,
            set_take_succ _ _ _ hhidx, h10]
          simp [heavy_tasks, List.filter_append, hHt]

/-- Claim C3: Phase 1 of the Heterogeneous policy is a stable partition by
weight class: the reordered buffer is the subsequence of light tasks, then
the subsequence of medium tasks, then the subsequence of heavy (else-branch)
tasks, each in original relative submission order (List.filter preserves
relative order by construction). -/
theorem heterogeneous_stable_partition (q : List (Task α)) :
    stratify_sorted q =
      (light_tasks q ++ medium_tasks q ++ heavy_tasks q).map some := by
  obtain ⟨hlen, hl, hm, hh⟩ :=
    strat_fold_inv (light_count q) (medium_count q) q.length q []
      { sorted := List.replicate q.length none, light_idx := 0,
        medium_idx := light_count q, heavy_idx := light_count q + medium_count q }
      (by simp) (by simp) (by simp) (by simp)
      (by simp [light_count]) (by simp [medium_count]) (by simp [heavy_count])
      (by simp [light_count, light_tasks]) (by simp [medium_count, medium_tasks])
      (by simp [heavy_count, heavy_tasks])
  simp only [List.nil_append] at hlen hl hm hh
  have hpart := counts_partition q
  unfold stratify_sorted
  set fin := (q.foldl strat_place
    { sorted := List.replicate q.length none, light_idx := 0,
      medium_idx := light_count q,
      heavy_idx := light_count q + medium_count q }).sorted with hfin
  have hdlen : (fin.drop (light_count q + medium_count q)).length ≤ heavy_count q := by
    rw [List.length_drop, hlen]; omega
  have hh2 : fin.drop (light_count q + medium_count q) = (heavy_tasks q).map some := by
    rw [← List.take_of_length_le hdlen, hh]
  have e1 : fin = fin.take (light_count q) ++ fin.drop (light_count q) :=
    (List.take_append_drop _ _).symm
  have e2 : fin.drop (light_count q) =
      (fin.drop (light_count q)).take (medium_count q) ++
      (fin.drop (light_count q)).drop (medium_count q) :=
    (List.take_append_drop _ _).symm
  have e3 : (fin.drop (light_count q)).drop (medium_count q) =
      fin.drop (light_count q + medium_count q) := by
    rw [List.drop_drop]
  rw [e1, e2, e3, hl, hm, hh2]
  simp [List.map_append, List.append_assoc]

/-!  Dynamic, Guided and Heterogeneous execution (task_scheduler.c).  The
OpenMP parallel for loops of execute_task_dynamic / execute_task_guided run
every index of [0, total) exactly once; the sequential model lists the
executed tasks in index order (which worker ran which index does not affect
any queue or metric state in the source). -/

/-- execute_task_dynamic of task_scheduler.c: parallel for, schedule
dynamic chunk 1, over task_queue[0 .. total). -/
def execute_task_dynamic (q : List (Task α)) : List (Task α) := q

/-- execute_task_guided of task_scheduler.c: parallel for, schedule guided,
over task_queue[0 .. total); chunk sizes are chosen by the OpenMP runtime
and do not change which tasks run. -/
def execute_task_guided (q : List (Task α)) : List (Task α) := q

/-- execute_task_heterogeneous of task_scheduler.c: Phase 1 builds the
stratified buffer (every slot written, by heterogeneous_stable_partition);
Phase 2 statically chunks the light region [0, light_count) exactly as
execute_task_static does and then runs a dynamic chunk-1 loop over
[light_count, total). -/
def execute_task_heterogeneous (q : List (Task α)) (nthreads : Nat) : List (Task α) :=
  let sorted := (stratify_sorted q).reduceOption
  execute_task_static (sorted.take (light_count q)) nthreads ++
    sorted.drop (light_count q)

/-- The switch of scheduler_run of task_scheduler.c (SCHEDULE_ADAPTIVE also
runs execute_task_heterogeneous). -/
def run_dispatch (mode : ScheduleMode) (q : List (Task α)) (nthreads : Nat) :
    List (Task α) :=
  match mode with
  | ScheduleMode.SCHEDULE_STATIC => execute_task_static q nthreads
  | ScheduleMode.SCHEDULE_DYNAMIC => execute_task_dynamic q
  | ScheduleMode.SCHEDULE_GUIDED => execute_task_guided q
  | ScheduleMode.SCHEDULE_HETEROGENEOUS => execute_task_heterogeneous q nthreads
  | ScheduleMode.SCHEDULE_ADAPTIVE => execute_task_heterogeneous q nthreads

/-- scheduler_run of task_scheduler.c: sets running, dispatches on mode
(each executed task does tasks_completed++ and active_tasks-- atomically),
clears running. -/
def scheduler_run (s : TaskScheduler α) : TaskScheduler α :=
  let executed := run_dispatch s.mode (queue_tasks s) s.num_threads
  { s with
    running := false,
    tasks_completed := s.tasks_completed + executed.length,
    active_tasks := s.active_tasks - executed.length }

theorem tasks_completed_submit_batch (l : List (α × TaskWeight)) (s : TaskScheduler α) :
    (submit_batch s l).tasks_completed = s.tasks_completed := by
  induction l generalizing s with
  | nil => rfl
  | cons x xs ih => rw [submit_batch_cons, ih]; rfl

theorem medium_filter_eq (q : List (Task α)) :
    (q.filter fun t => !branch_light t).filter branch_medium = medium_tasks q := by
  rw [List.filter_filter]
  apply List.filter_congr
  intro t _
  cases hw : t.weight <;> simp [branch_light, branch_medium, hw]

theorem heavy_filter_eq (q : List (Task α)) :
    (q.filter fun t => !branch_light t).filter (fun t => !branch_medium t) =
      heavy_tasks q := by
  rw [List.filter_filter]
  show q.filter _ = q.filter branch_heavy
  apply List.filter_congr
  intro t _
  cases hw : t.weight <;>
    simp [branch_light, branch_medium, branch_heavy, hw, Bool.and_comm]

/-- The stratified order is a permutation of the submission order. -/
theorem stratified_perm (q : List (Task α)) :
    List.Perm (light_tasks q ++ medium_tasks q ++ heavy_tasks q) q := by
  have h1 : List.Perm (light_tasks q ++ q.filter fun t => !branch_light t) q :=
    List.filter_append_perm branch_light q
  have h2 := List.filter_append_perm branch_medium (q.filter fun t => !branch_light t)
  rw [medium_filter_eq, heavy_filter_eq] at h2
  have h3 : List.Perm (light_tasks q ++ (medium_tasks q ++ heavy_tasks q))
      (light_tasks q ++ q.filter fun t => !branch_light t) :=
    List.Perm.append_left _ h2
  rw [List.append_assoc]
  exact h3.trans h1

/-- Heterogeneous execution runs every queued task exactly once. -/
theorem execute_task_heterogeneous_perm (q : List (Task α)) (nthreads : Nat)
    (h : 1 ≤ nthreads) :
    List.Perm (execute_task_heterogeneous q nthreads) q := by
  simp only [execute_task_heterogeneous]
  rw [heterogeneous_stable_partition, reduceOption_map_some_eq]
  have hlt : (light_tasks q).length = light_count q := by
    rw [light_count, light_tasks, List.countP_eq_length_filter]
  have htake : (light_tasks q ++ medium_tasks q ++ heavy_tasks q).take (light_count q) =
      light_tasks q := by
    rw [List.append_assoc]
    exact List.take_left' hlt
  have hdrop : (light_tasks q ++ medium_tasks q ++ heavy_tasks q).drop (light_count q) =
      medium_tasks q ++ heavy_tasks q := by
    rw [List.append_assoc]
    exact List.drop_left' hlt
  rw [htake, hdrop, execute_task_static_eq _ _ h, ← List.append_assoc]
  exact stratified_perm q

/-- Every policy runs every queued task exactly once. -/
theorem run_dispatch_perm (mode : ScheduleMode) (q : List (Task α)) (nthreads : Nat)
    (h : 1 ≤ nthreads) :
    List.Perm (run_dispatch mode q nthreads) q := by
  cases mode with
  | SCHEDULE_STATIC =>
    show List.Perm (execute_task_static q nthreads) q
    rw [execute_task_static_eq q nthreads h]
  | SCHEDULE_DYNAMIC => exact List.Perm.refl q
  | SCHEDULE_GUIDED => exact List.Perm.refl q
  | SCHEDULE_HETEROGENEOUS => exact execute_task_heterogeneous_perm q nthreads h
  | SCHEDULE_ADAPTIVE => exact execute_task_heterogeneous_perm q nthreads h

/-- Per-worker completion counters of benchmark_schedule_mode of benchmark.c:
assign records which worker claimed each task index in the dynamic chunk-1
loop; a worker's counter is the number of indices it executed. -/
def worker_count (N : Nat) (assign : Nat → Nat) (t : Nat) : Nat :=
  (List.range N).countP fun i => assign i == t

theorem sum_worker_counts (W : Nat) (assign : Nat → Nat) :
    ∀ N, (∀ i, i < N → assign i < W) →
      ∑ t in Finset.range W, worker_count N assign t = N := by
  intro N
  induction N with
  | zero => intro _; simp [worker_count]
  | succ n ih =>
    intro h
    have hstep : ∀ t, worker_count (n + 1) assign t =
        worker_count n assign t + (if assign n = t then 1 else 0) := by
      intro t
      unfold worker_count
      rw [List.range_succ, List.countP_append]
      simp [List.countP_cons]
    have hsum : ∑ t in Finset.range W, worker_count (n + 1) assign t =
        (∑ t in Finset.range W, worker_count n assign t) +
        (∑ t in Finset.range W, if assign n = t then 1 else 0) := by
      rw [← Finset.sum_add_distrib]
      exact Finset.sum_congr rfl fun t _ => hstep t
    rw [hsum, ih (fun i hi => h i (by omega))]
    have hmem : assign n ∈ Finset.range W := Finset.mem_range.mpr (h n (by omega))
    rw [Finset.sum_ite_eq _ (assign n) (fun _ => 1), if_pos hmem]

/-- Claim C1: with N tasks submitted (N within capacity) and num_threads
W at least 1, scheduler_run under any policy completes exactly N tasks:
tasks_completed becomes N, and the per-worker completion counters of the
benchmark loop sum to N as well. -/
theorem scheduler_run_counts (l : List (α × TaskWeight)) (W cap : Nat)
    (mode : ScheduleMode) (hW : 1 ≤ W) (hcap : l.length ≤ cap)
    (assign : Nat → Nat) (hassign : ∀ i, i < l.length → assign i < W) :
    (scheduler_run (submit_batch (scheduler_init α W cap mode) l)).tasks_completed =
      l.length ∧
    (∑ t in Finset.range W, worker_count l.length assign t) = l.length ∧
    (∑ t in Finset.range W, worker_count l.length assign t) =
      (scheduler_run (submit_batch (scheduler_init α W cap mode) l)).tasks_completed := by
  set s := submit_batch (scheduler_init α W cap mode) l with hs
  have hmode : s.mode = mode := by rw [hs, mode_submit_batch]; rfl
  have hthreads : s.num_threads = W := by rw [hs, num_threads_submit_batch]; rfl
  have hq : queue_tasks s = tasks_of l := queue_tasks_submit_batch l W cap mode hcap
  have hcomp0 : s.tasks_completed = 0 := by rw [hs, tasks_completed_submit_batch]; rfl
  have hlen : (run_dispatch s.mode (queue_tasks s) s.num_threads).length = l.length := by
    rw [hmode, hthreads, hq, (run_dispatch_perm mode (tasks_of l) W hW).length_eq]
    exact length_tasks_from 0 l
  have h1 : (scheduler_run s).tasks_completed = l.length := by
    show s.tasks_completed +
      (run_dispatch s.mode (queue_tasks s) s.num_threads).length = l.length
    rw [hcomp0, hlen]
    omega
  have h2 := sum_worker_counts W assign l.length hassign
  exact ⟨h1, h2, by rw [h1, h2]⟩

/-- Witness for Claim C1 at a concrete input: three tasks, two workers,
heterogeneous mode, indices assigned alternately. -/
theorem scheduler_run_counts_witness :
    (scheduler_run (submit_batch
        (scheduler_init Nat 2 4 ScheduleMode.SCHEDULE_HETEROGENEOUS)
        [(7, TaskWeight.TASK_LIGHT), (8, TaskWeight.TASK_HEAVY),
         (9, TaskWeight.TASK_LIGHT)])).tasks_completed = 3 ∧
    (∑ t in Finset.range 2, worker_count 3 (fun i => i % 2) t) = 3 ∧
    (∑ t in Finset.range 2, worker_count 3 (fun i => i % 2) t) =
      (scheduler_run (submit_batch
        (scheduler_init Nat 2 4 ScheduleMode.SCHEDULE_HETEROGENEOUS)
        [(7, TaskWeight.TASK_LIGHT), (8, TaskWeight.TASK_HEAVY),
         (9, TaskWeight.TASK_LIGHT)])).tasks_completed :=
  scheduler_run_counts
    [(7, TaskWeight.TASK_LIGHT), (8, TaskWeight.TASK_HEAVY),
     (9, TaskWeight.TASK_LIGHT)] 2 4 ScheduleMode.SCHEDULE_HETEROGENEOUS
    (by decide) (by decide) (fun i => i % 2) (by decide)

/-!  Claim C10: benchmark_schedule_mode of benchmark.c builds a scheduler in
the requested mode and submits the workload, but then executes the queue with
its own omp for schedule(dynamic,1) loop over [0, sched.tail); scheduler_run
and the per-policy dispatch are never invoked, so the observables cannot
depend on the mode. -/

/-- Observable behaviour of benchmark_schedule_mode: the tasks its claiming
loop executes (each queue index exactly once) and the latency slots written
(slot i for each executed index i). -/
structure BenchObserved (α : Type) where
  executed : List (Task α)
  latency_slots : List Nat

/-- benchmark_schedule_mode of benchmark.c, reduced to its observables. -/
def benchmark_schedule_mode (mode : ScheduleMode) (workload : List (α × TaskWeight))
    (num_threads ntasks : Nat) : BenchObserved α :=
  let sched := submit_batch (scheduler_init α num_threads ntasks mode) workload
  { executed := queue_tasks sched, latency_slots := List.range sched.tail }

theorem submit_batch_queue_agnostic (l : List (α × TaskWeight)) :
    ∀ (s1 s2 : TaskScheduler α), s1.task_queue = s2.task_queue → s1.tail = s2.tail →
      s1.capacity = s2.capacity →
      (submit_batch s1 l).task_queue = (submit_batch s2 l).task_queue ∧
      (submit_batch s1 l).tail = (submit_batch s2 l).tail := by
  induction l with
  | nil => intro s1 s2 hq ht _; exact ⟨hq, ht⟩
  | cons x xs ih =>
    intro s1 s2 hq ht hc
    rw [submit_batch_cons, submit_batch_cons]
    apply ih
    · simp [scheduler_submit, hq, ht, hc]
    · simp [scheduler_submit, ht]
    · simp [scheduler_submit, hc]

/-- Claim C10: the benchmark measurement function is insensitive to its
ScheduleMode argument: with otherwise identical inputs, the executed tasks
and the latency slots written are identical for any two modes. -/
theorem benchmark_mode_insensitive (m1 m2 : ScheduleMode)
    (workload : List (α × TaskWeight)) (num_threads ntasks : Nat) :
    benchmark_schedule_mode m1 workload num_threads ntasks =
      benchmark_schedule_mode m2 workload num_threads ntasks := by
  obtain ⟨hq, ht⟩ := submit_batch_queue_agnostic workload
    (scheduler_init α num_threads ntasks m1)
    (scheduler_init α num_threads ntasks m2) rfl rfl rfl
  have hqt : queue_tasks (submit_batch (scheduler_init α num_threads ntasks m1) workload) =
      queue_tasks (submit_batch (scheduler_init α num_threads ntasks m2) workload) := by
    unfold queue_tasks
    rw [hq, ht]
  simp only [benchmark_schedule_mode]
  rw [hqt, ht]

/-!  Guided chunk decay (Claim C5).  The source uses the OpenMP pragma
schedule(guided) (task_scheduler.c, execute_task_guided), so the claiming
protocol itself is carried out by the OpenMP runtime, not by code under
src/.  It is modelled from the spec here. -/

/-- Modelled from the spec: the chunk a claim grants under the Guided policy,
remaining = len - claimed; chunk = max(1, ceil(remaining / num_threads)).
The claiming protocol is inside the OpenMP runtime (schedule(guided)), not in
src/. -/
def guided_next_chunk (len num_threads claimed : Nat) : Nat :=
  max 1 ((len - claimed + num_threads - 1) / num_threads)

/-- Modelled from the spec: the sequence of successively claimed chunk sizes
under the Guided policy, starting from claimed tasks already granted.  The
fuel argument bounds the number of claims; len suffices because every claim
grants at least one task. -/
def guided_chunks_from (len num_threads : Nat) : Nat → Nat → List Nat
  | _, 0 => []
  | claimed, fuel + 1 =>
    if claimed < len then
      guided_next_chunk len num_threads claimed ::
        guided_chunks_from len num_threads
          (claimed + guided_next_chunk len num_threads claimed) fuel
    else []

/-- Modelled from the spec: all chunk sizes granted for len tasks. -/
def guided_chunks (len num_threads : Nat) : List Nat :=
  guided_chunks_from len num_threads 0 len

theorem guided_next_chunk_pos (len num_threads claimed : Nat) :
    1 ≤ guided_next_chunk len num_threads claimed :=
  Nat.le_max_left 1 _

theorem guided_next_chunk_mono (len num_threads c1 c2 : Nat) (h : c1 ≤ c2) :
    guided_next_chunk len num_threads c2 ≤ guided_next_chunk len num_threads c1 := by
  unfold guided_next_chunk
  have hsub : len - c2 ≤ len - c1 := by omega
  have hdiv : (len - c2 + num_threads - 1) / num_threads ≤
      (len - c1 + num_threads - 1) / num_threads :=
    Nat.div_le_div_right (by omega)
  omega

theorem guided_chunks_from_pos (len num_threads : Nat) :
    ∀ fuel claimed c, c ∈ guided_chunks_from len num_threads claimed fuel → 1 ≤ c := by
  intro fuel
  induction fuel with
  | zero => intro claimed c hc; simp [guided_chunks_from] at hc
  | succ n ih =>
    intro claimed c hc
    unfold guided_chunks_from at hc
    by_cases h : claimed < len
    · rw [if_pos h] at hc
      rcases List.mem_cons.mp hc with h1 | h2
      · rw [h1]; exact guided_next_chunk_pos len num_threads claimed
      · exact ih _ c h2
    · rw [if_neg h] at hc
      simp at hc

theorem guided_chunks_from_le (len num_threads : Nat) :
    ∀ fuel claimed c, c ∈ guided_chunks_from len num_threads claimed fuel →
      c ≤ guided_next_chunk len num_threads claimed := by
  intro fuel
  induction fuel with
  | zero => intro claimed c hc; simp [guided_chunks_from] at hc
  | succ n ih =>
    intro claimed c hc
    unfold guided_chunks_from at hc
    by_cases h : claimed < len
    · rw [if_pos h] at hc
      rcases List.mem_cons.mp hc with h1 | h2
      · omega
      · have := ih _ c h2
        have := guided_next_chunk_mono len num_threads claimed
          (claimed + guided_next_chunk len num_threads claimed) (by omega)
        omega
    · rw [if_neg h] at hc
      simp at hc

theorem guided_chunks_from_sorted (len num_threads : Nat) :
    ∀ fuel claimed,
      List.Chain' (fun a b => b ≤ a) (guided_chunks_from len num_threads claimed fuel) := by
  intro fuel
  induction fuel with
  | zero => intro claimed; simp [guided_chunks_from]
  | succ n ih =>
    intro claimed
    unfold guided_chunks_from
    by_cases h : claimed < len
    · rw [if_pos h]
      apply List.chain'_cons'.mpr
      refine ⟨?_, ih _⟩
      intro y hy
      have hmem := List.mem_of_mem_head? hy
      have h1 := guided_chunks_from_le len num_threads n _ y hmem
      have h2 := guided_next_chunk_mono len num_threads claimed
        (claimed + guided_next_chunk len num_threads claimed) (by omega)
      omega
    · rw [if_neg h]
      simp

/-- Claim C5: under the Guided policy each claim grants
max(1, ceil(remaining / num_threads)) tasks, and for any len and
num_threads at least 1 the successive chunk sizes are non-increasing and
never below 1. -/
theorem guided_chunks_decay (len num_threads : Nat) (hthreads : 1 ≤ num_threads) :
    List.Chain' (fun a b => b ≤ a) (guided_chunks len num_threads) ∧
    ∀ c ∈ guided_chunks len num_threads, 1 ≤ c :=
  ⟨guided_chunks_from_sorted len num_threads len 0,
   fun c hc => guided_chunks_from_pos len num_threads len 0 c hc⟩

/-- Witness for Claim C5 at a concrete input: 10 tasks over 4 threads grant
chunks 3, 2, 2, 1, 1, 1. -/
theorem guided_chunks_decay_witness :
    List.Chain' (fun a b => b ≤ a) (guided_chunks 10 4) ∧
    ∀ c ∈ guided_chunks 10 4, 1 ≤ c :=
  guided_chunks_decay 10 4 (by decide)

/-!  Latency histogram (print_latency_histogram of benchmark.c).  C doubles
carrying millisecond latencies are modelled by rationals; every comparison of
the bucketing chain is exact. -/

/-- The if / else-if chain of print_latency_histogram choosing the bucket of
one sample. -/
def bucket_index (l : ℚ) : Nat :=
  if l < 1 then 0
  else if l < 2 then 1
  else if l < 5 then 2
  else if l < 10 then 3
  else if l < 20 then 4
  else if l < 50 then 5
  else if l < 100 then 6
  else 7

/-- print_latency_histogram of benchmark.c: 8 counters starting at 0, one
incremented per sample. -/
def latency_histogram (latencies : List ℚ) : List Nat :=
  latencies.foldl
    (fun b l => b.set (bucket_index l) (b.getD (bucket_index l) 0 + 1))
    (List.replicate 8 0)

/-- The 8 half-open latency bands with boundaries {0,1,2,5,10,20,50,100,inf};
the final band is unbounded above. -/
def in_band (i : Nat) (l : ℚ) : Prop :=
  match i with
  | 0 => 0 ≤ l ∧ l < 1
  | 1 => 1 ≤ l ∧ l < 2
  | 2 => 2 ≤ l ∧ l < 5
  | 3 => 5 ≤ l ∧ l < 10
  | 4 => 10 ≤ l ∧ l < 20
  | 5 => 20 ≤ l ∧ l < 50
  | 6 => 50 ≤ l ∧ l < 100
  | 7 => 100 ≤ l
  | _ + 8 => False

theorem bucket_index_lt (l : ℚ) : bucket_index l < 8 := by
  unfold bucket_index
  split_ifs <;> omega

theorem bucket_index_in_band (l : ℚ) (h : 0 ≤ l) : in_band (bucket_index l) l := by
  unfold bucket_index
  split_ifs with h1 h2 h3 h4 h5 h6 h7 <;>
    simp only [in_band, not_lt] at * <;>
    first
      | exact ⟨by linarith, by linarith⟩
      | linarith

set_option maxHeartbeats 1600000 in
theorem in_band_eq_bucket (l : ℚ) : ∀ j, in_band j l → j = bucket_index l := by
  intro j hj
  unfold bucket_index
  match j, hj with
  | 0, hj =>
    simp only [in_band] at hj
    split_ifs <;> first | rfl | linarith [hj.1, hj.2]
  | 1, hj =>
    simp only [in_band] at hj
    split_ifs <;> first | rfl | linarith [hj.1, hj.2]
  | 2, hj =>
    simp only [in_band] at hj
    split_ifs <;> first | rfl | linarith [hj.1, hj.2]
  | 3, hj =>
    simp only [in_band] at hj
    split_ifs <;> first | rfl | linarith [hj.1, hj.2]
  | 4, hj =>
    simp only [in_band] at hj
    split_ifs <;> first | rfl | linarith [hj.1, hj.2]
  | 5, hj =>
    simp only [in_band] at hj
    split_ifs <;> first | rfl | linarith [hj.1, hj.2]
  | 6, hj =>
    simp only [in_band] at hj
    split_ifs <;> first | rfl | linarith [hj.1, hj.2]
  | 7, hj =>
    simp only [in_band] at hj
    split_ifs <;> first | rfl | linarith [hj]

theorem sum_set_getD_succ (b : List Nat) (i : Nat) (h : i < b.length) :
    (b.set i (b.getD i 0 + 1)).sum = b.sum + 1 := by
  induction b generalizing i with
  | nil => simp at h
  | cons x xs ih =>
    cases i with
    | zero => simp [List.getD_cons_zero]; omega
    | succ j =>
      have hj : j < xs.length := by simpa using h
      simp only [List.getD_cons_succ, List.set_cons_succ, List.sum_cons, ih j hj]
      omega

theorem latency_histogram_fold (latencies : List ℚ) :
    ∀ b : List Nat, b.length = 8 →
      (latencies.foldl
          (fun b l => b.set (bucket_index l) (b.getD (bucket_index l) 0 + 1))
          b).length = 8 ∧
      (latencies.foldl
          (fun b l => b.set (bucket_index l) (b.getD (bucket_index l) 0 + 1))
          b).sum = b.sum + latencies.length := by
  induction latencies with
  | nil => intro b hb; simpa using hb
  | cons l ls ih =>
    intro b hb
    rw [List.foldl_cons]
    have hidx : bucket_index l < b.length := by rw [hb]; exact bucket_index_lt l
    have hlen : (b.set (bucket_index l) (b.getD (bucket_index l) 0 + 1)).length = 8 := by
      rw [List.length_set, hb]
    obtain ⟨ha, hs⟩ := ih _ hlen
    refine ⟨ha, ?_⟩
    rw [hs, sum_set_getD_succ b _ hidx]
    simp
    omega

/-- Claim C6: the histogram has 8 buckets, every nonnegative sample lies in
exactly one of the 8 half-open bands with boundaries {0,1,2,5,10,20,50,100}
(final band unbounded above) -- namely the one its bucket records -- and the
bucket counts sum exactly to the number of samples. -/
theorem latency_histogram_ok (latencies : List ℚ) (hnn : ∀ l ∈ latencies, 0 ≤ l) :
    (latency_histogram latencies).length = 8 ∧
    (latency_histogram latencies).sum = latencies.length ∧
    ∀ l ∈ latencies, in_band (bucket_index l) l ∧
      ∀ j, in_band j l → j = bucket_index l := by
  obtain ⟨ha, hs⟩ := latency_histogram_fold latencies (List.replicate 8 0) (by simp)
  refine ⟨ha, ?_, ?_⟩
  · rw [latency_histogram, hs]
    simp [List.sum_replicate]
  · intro l hl
    exact ⟨bucket_index_in_band l (hnn l hl), in_band_eq_bucket l⟩

/-- Witness for Claim C6 at a concrete input: samples 0.5, 3, 250 ms. -/
theorem latency_histogram_ok_witness :
    (latency_histogram [1/2, 3, 250]).length = 8 ∧
    (latency_histogram [1/2, 3, 250]).sum = 3 ∧
    in_band (bucket_index (1/2 : ℚ)) (1/2 : ℚ) := by
  have h := latency_histogram_ok [1/2, 3, 250] (by norm_num)
  exact ⟨h.1, h.2.1, (h.2.2 (1/2) (by norm_num)).1⟩

/-!  Fairness analysis (analyze_thread_load of benchmark.c).  The per-worker
counters are C ints, modelled by integers; the double arithmetic of the mean
and the fairness ratio is modelled by rationals.  The standard deviation
output involves a square root and no claim depends on it, so it is not
carried here. -/

/-- The min accumulator of analyze_thread_load: starts at thread_counts[0]
and takes the minimum over the whole loop. -/
def analyze_min (tc : List ℤ) : ℤ := tc.foldl min (tc.headD 0)

/-- The max accumulator of analyze_thread_load. -/
def analyze_max (tc : List ℤ) : ℤ := tc.foldl max (tc.headD 0)

/-- The sum accumulator of analyze_thread_load. -/
def analyze_sum (tc : List ℤ) : ℤ := tc.foldl (fun s x => s + x) 0

/-- mean = (double)sum / (double)threads. -/
def analyze_mean (tc : List ℤ) : ℚ := (analyze_sum tc : ℚ) / (tc.length : ℚ)

/-- fairness = (mean > 0) ? 100.0 * min / mean : 0.0. -/
def analyze_fairness (tc : List ℤ) : ℚ :=
  if 0 < analyze_mean tc then 100 * (analyze_min tc : ℚ) / analyze_mean tc else 0

theorem foldl_add_acc (l : List ℤ) : ∀ a : ℤ, l.foldl (fun s x => s + x) a = a + l.sum := by
  induction l with
  | nil => intro a; simp
  | cons x xs ih =>
    intro a
    rw [List.foldl_cons, ih, List.sum_cons]
    ring

theorem analyze_sum_eq (tc : List ℤ) : analyze_sum tc = tc.sum := by
  rw [analyze_sum, foldl_add_acc]
  ring

theorem foldl_min_le_init (l : List ℤ) : ∀ a : ℤ, l.foldl min a ≤ a := by
  induction l with
  | nil => intro a; simp
  | cons x xs ih =>
    intro a
    rw [List.foldl_cons]
    exact le_trans (ih (min a x)) (min_le_left a x)

theorem foldl_min_le_mem (l : List ℤ) : ∀ (a : ℤ) (x : ℤ), x ∈ l → l.foldl min a ≤ x := by
  induction l with
  | nil => intro a x hx; simp at hx
  | cons y ys ih =>
    intro a x hx
    rw [List.foldl_cons]
    rcases List.mem_cons.mp hx with h1 | h2
    · subst h1
      exact le_trans (foldl_min_le_init ys (min a x)) (min_le_right a x)
    · exact ih (min a y) x h2

theorem foldl_min_mem (l : List ℤ) : ∀ a : ℤ, l.foldl min a = a ∨ l.foldl min a ∈ l := by
  induction l with
  | nil => intro a; left; rfl
  | cons x xs ih =>
    intro a
    rw [List.foldl_cons]
    rcases ih (min a x) with h1 | h2
    · rcases le_total a x with hax | hxa
      · left; rw [h1]; exact min_eq_left hax
      · right; rw [h1, min_eq_right hxa]; exact List.mem_cons_self x xs
    · right; right; exact h2

theorem foldl_min_const (l : List ℤ) (k : ℤ) (h : ∀ x ∈ l, x = k) :
    l.foldl min k = k := by
  induction l with
  | nil => rfl
  | cons x xs ih =>
    rw [List.foldl_cons, h x (by simp), min_self]
    exact ih fun x hx => h x (by simp [hx])

/-- Claim C7: fairness = 100 * min / mean (0 when the mean is 0); for every
list of nonnegative per-worker counts whose mean is nonzero the fairness
ratio lies in [0, 100], and it equals exactly 100 when all workers complete
an equal count. -/
theorem fairness_bounds (tc : List ℤ) (hnn : ∀ x ∈ tc, 0 ≤ x)
    (hmean : analyze_mean tc ≠ 0) :
    (0 ≤ analyze_fairness tc ∧ analyze_fairness tc ≤ 100) ∧
    ∀ k : ℤ, (∀ x ∈ tc, x = k) → analyze_fairness tc = 100 := by
  have hne : tc ≠ [] := by
    intro h
    apply hmean
    rw [h]
    simp [analyze_mean, analyze_sum]
  have hn : 0 < (tc.length : ℚ) := by
    have : 0 < tc.length := List.length_pos.mpr hne
    exact_mod_cast this
  have hhead : tc.headD 0 ∈ tc := by
    cases tc with
    | nil => exact absurd rfl hne
    | cons x xs => simp
  have hmin_mem : analyze_min tc ∈ tc := by
    rcases foldl_min_mem tc (tc.headD 0) with h1 | h2
    · rw [analyze_min, h1]; exact hhead
    · exact h2
  have hmin_nn : 0 ≤ analyze_min tc := hnn _ hmin_mem
  have hsum_ge : (tc.length : ℤ) * analyze_min tc ≤ analyze_sum tc := by
    rw [analyze_sum_eq]
    have := List.card_nsmul_le_sum tc (analyze_min tc)
      (fun x hx => foldl_min_le_mem tc (tc.headD 0) x hx)
    simpa [nsmul_eq_mul] using this
  have hsum_nn : 0 ≤ analyze_sum tc := by
    rw [analyze_sum_eq]
    exact List.sum_nonneg hnn
  have hmean_nn : 0 ≤ analyze_mean tc := by
    rw [analyze_mean]
    apply div_nonneg
    · exact_mod_cast hsum_nn
    · exact le_of_lt hn
  have hmean_pos : 0 < analyze_mean tc := lt_of_le_of_ne hmean_nn (Ne.symm hmean)
  have hmin_le_mean : (analyze_min tc : ℚ) ≤ analyze_mean tc := by
    rw [analyze_mean, le_div_iff hn]
    have : ((tc.length : ℤ) * analyze_min tc : ℚ) ≤ (analyze_sum tc : ℚ) := by
      exact_mod_cast hsum_ge
    push_cast at this ⊢
    linarith
  have hfold : analyze_fairness tc = 100 * (analyze_min tc : ℚ) / analyze_mean tc := by
    rw [analyze_fairness, if_pos hmean_pos]
  constructor
  · constructor
    · rw [hfold]
      apply div_nonneg
      · have : (0 : ℚ) ≤ (analyze_min tc : ℚ) := by exact_mod_cast hmin_nn
        linarith
      · linarith
    · rw [hfold, div_le_iff hmean_pos]
      linarith
  · intro k hk
    have hmin_k : analyze_min tc = k := by
      have hhd : tc.headD 0 = k := hk _ hhead
      rw [analyze_min, hhd]
      exact foldl_min_const tc k hk
    have hsum_k : analyze_sum tc = tc.length * k := by
      rw [analyze_sum_eq,
        show tc.sum = (List.replicate tc.length k).sum by
          rw [← List.eq_replicate_of_mem hk],
        List.sum_replicate, nsmul_eq_mul]
    have hmean_k : analyze_mean tc = (k : ℚ) := by
      rw [analyze_mean, hsum_k]
      push_cast
      rw [mul_comm, mul_div_assoc, div_self (ne_of_gt hn), mul_one]
    have hkpos : (0 : ℚ) < k := by rw [← hmean_k]; exact hmean_pos
    rw [hfold, hmin_k, hmean_k]
    field_simp

/-- Witness for Claim C7 at a concrete input: two workers with 2 tasks each. -/
theorem fairness_bounds_witness :
    (0 ≤ analyze_fairness [2, 2] ∧ analyze_fairness [2, 2] ≤ 100) ∧
    analyze_fairness [2, 2] = 100 := by
  have h := fairness_bounds [2, 2] (by decide)
    (by
      rw [analyze_mean, analyze_sum]
      norm_num)
  exact ⟨h.1, h.2 2 (by decide)⟩

/-!  Reduction workload (run_reduction_workload and reduction_task of
workloads.c).  A task's payload is its [start, end) index range; the shared
array is a function, and the shared result cell accumulates one atomic add
per executed task, so its final value is the sum of the per-task partial
sums (integer addition commutes, so the interleaving does not matter). -/

/-- ReductionTask of workloads.h, reduced to the index range; stop models
the struct field named end (a Lean keyword). -/
structure ReductionTask where
  start : Nat
  stop : Nat
deriving DecidableEq, Repr

/-- The loop of reduction_task of workloads.c: sums array[start .. end). -/
def reduction_task_sum (array : Nat → Int) (t : ReductionTask) : Int :=
  ((List.range' t.start (t.stop - t.start)).map array).sum

/-- The submission loop of run_reduction_workload of workloads.c: i starts
at 0 and advances by chunk while i < array_size; each task gets the range
[i, min(i + chunk, array_size)).  Structural fuel bounds the iteration
count; array_size iterations suffice whenever chunk is at least 1 (for
chunk = 0 the C loop would not terminate). -/
def reduction_ranges (array_size chunk : Nat) : Nat → Nat → List ReductionTask
  | _, 0 => []
  | i, fuel + 1 =>
    if i < array_size then
      { start := i, stop := min (i + chunk) array_size } ::
        reduction_ranges array_size chunk (i + chunk) fuel
    else []

/-- run_reduction_workload of workloads.c: the submitted payloads, all
TASK_LIGHT, with chunk = array_size / 100. -/
def reduction_submissions (array_size : Nat) : List (ReductionTask × TaskWeight) :=
  (reduction_ranges array_size (array_size / 100) 0 array_size).map
    fun r => (r, TaskWeight.TASK_LIGHT)

/-- The value of the shared result cell once every executed task has done its
atomic add. -/
def reduction_result (array : Nat → Int) (executed : List (Task ReductionTask)) : Int :=
  (executed.map fun t => reduction_task_sum array t.arg).sum

theorem reduction_ranges_bounds (n c : Nat) :
    ∀ fuel i r, r ∈ reduction_ranges n c i fuel →
      i ≤ r.start ∧ r.start < n ∧ r.stop ≤ n := by
  intro fuel
  induction fuel with
  | zero => intro i r hr; simp [reduction_ranges] at hr
  | succ m ih =>
    intro i r hr
    unfold reduction_ranges at hr
    by_cases h : i < n
    · rw [if_pos h] at hr
      rcases List.mem_cons.mp hr with h1 | h2
      · rw [h1]
        refine ⟨Nat.le_refl i, h, ?_⟩
        simp
      · have := ih (i + c) r h2
        omega
    · rw [if_neg h] at hr
      simp at hr

theorem reduction_ranges_sorted (n c : Nat) :
    ∀ fuel i, (reduction_ranges n c i fuel).Pairwise
      (fun r1 r2 => r1.stop ≤ r2.start) := by
  intro fuel
  induction fuel with
  | zero => intro i; simp [reduction_ranges]
  | succ m ih =>
    intro i
    unfold reduction_ranges
    by_cases h : i < n
    · rw [if_pos h]
      refine List.pairwise_cons.mpr ⟨?_, ih (i + c)⟩
      intro r hr
      have := reduction_ranges_bounds n c m (i + c) r hr
      simp only []
      omega
    · rw [if_neg h]
      simp

theorem reduction_ranges_cover (n c : Nat) (hc : 1 ≤ c) :
    ∀ fuel i k, n - i ≤ fuel → i ≤ k → k < n →
      ∃ r ∈ reduction_ranges n c i fuel, r.start ≤ k ∧ k < r.stop := by
  intro fuel
  induction fuel with
  | zero => intro i k hfuel hik hk; exfalso; omega
  | succ m ih =>
    intro i k hfuel hik hk
    have h : i < n := by omega
    unfold reduction_ranges
    rw [if_pos h]
    by_cases hkc : k < min (i + c) n
    · exact ⟨_, List.mem_cons_self _ _, hik, hkc⟩
    · have hk2 : i + c ≤ k := by omega
      obtain ⟨r, hr, hr2⟩ := ih (i + c) k (by omega) hk2 hk
      exact ⟨r, List.mem_cons_of_mem _ hr, hr2⟩

theorem reduction_ranges_sum (n c : Nat) (hc : 1 ≤ c) :
    ∀ fuel i, n - i ≤ fuel →
      ((reduction_ranges n c i fuel).map fun r => r.stop - r.start).sum = n - i := by
  intro fuel
  induction fuel with
  | zero => intro i hfuel; simp [reduction_ranges]; omega
  | succ m ih =>
    intro i hfuel
    unfold reduction_ranges
    by_cases h : i < n
    · rw [if_pos h]
      rw [List.map_cons, List.sum_cons, ih (i + c) (by omega)]
      simp only []
      omega
    · rw [if_neg h]
      simp
      omega

theorem reduction_ranges_length_le (n c : Nat) :
    ∀ fuel i, (reduction_ranges n c i fuel).length ≤ fuel := by
  intro fuel
  induction fuel with
  | zero => intro i; simp [reduction_ranges]
  | succ m ih =>
    intro i
    unfold reduction_ranges
    by_cases h : i < n
    · rw [if_pos h]
      simpa using ih (i + c)
    · rw [if_neg h]
      simp

theorem mem_ranges_union (rs : List ReductionTask) (k : Nat) :
    k ∈ rs.foldr (fun r acc => Finset.Ico r.start r.stop ∪ acc) ∅ ↔
      ∃ r ∈ rs, k ∈ Finset.Ico r.start r.stop := by
  induction rs with
  | nil => simp
  | cons r rs ih => simp [ih]

theorem map_arg_tasks_from (f : β → Int) (i : Nat) (l : List (β × TaskWeight)) :
    ((tasks_from i l : List (Task β)).map fun t => f t.arg) =
      l.map fun x => f x.1 := by
  induction l generalizing i with
  | nil => rfl
  | cons x xs ih => simp [tasks_from, ih]

theorem reduction_task_sum_ones (t : ReductionTask) :
    reduction_task_sum (fun _ => 1) t = ((t.stop - t.start : Nat) : Int) := by
  unfold reduction_task_sum
  rw [List.map_const', List.sum_replicate, List.length_range', nsmul_eq_mul, mul_one]

/-- Claim C9: for the reduction workload over 1000 elements
(chunk = 1000 / 100 = 10), the generated chunk tasks' [start, end) ranges are
pairwise disjoint and their union is exactly [0, 1000), and with every array
element 1 the accumulated result equals 1000 under every scheduling policy
and every thread count of at least 1. -/
theorem reduction_workload_total (mode : ScheduleMode) (W : Nat) (hW : 1 ≤ W) :
    ((reduction_ranges 1000 (1000 / 100) 0 1000).Pairwise fun r1 r2 =>
        Disjoint (Finset.Ico r1.start r1.stop) (Finset.Ico r2.start r2.stop)) ∧
    ((reduction_ranges 1000 (1000 / 100) 0 1000).foldr
        (fun r acc => Finset.Ico r.start r.stop ∪ acc) ∅ = Finset.range 1000) ∧
    reduction_result (fun _ => 1)
      (run_dispatch mode
        (queue_tasks (submit_batch
          (scheduler_init ReductionTask W 1000 mode) (reduction_submissions 1000)))
        W) = 1000 := by
  have hc : 1 ≤ 1000 / 100 := by norm_num
  refine ⟨?_, ?_, ?_⟩
  · exact (reduction_ranges_sorted 1000 (1000 / 100) 1000 0).imp
      (fun hle => Finset.disjoint_left.mpr fun k hk1 hk2 => by
        rw [Finset.mem_Ico] at hk1 hk2
        omega)
  · ext k
    rw [mem_ranges_union, Finset.mem_range]
    constructor
    · rintro ⟨r, hr, hk⟩
      rw [Finset.mem_Ico] at hk
      have := reduction_ranges_bounds 1000 (1000 / 100) 1000 0 r hr
      omega
    · intro hk
      obtain ⟨r, hr, h1, h2⟩ :=
        reduction_ranges_cover 1000 (1000 / 100) hc 1000 0 k (by omega) (by omega) hk
      exact ⟨r, hr, Finset.mem_Ico.mpr ⟨h1, h2⟩⟩
  · have hlen : (reduction_submissions 1000).length ≤ 1000 := by
      rw [reduction_submissions, List.length_map]
      exact reduction_ranges_length_le 1000 (1000 / 100) 1000 0
    have hq : queue_tasks (submit_batch
        (scheduler_init ReductionTask W 1000 mode) (reduction_submissions 1000)) =
        tasks_of (reduction_submissions 1000) :=
      queue_tasks_submit_batch (reduction_submissions 1000) W 1000 mode hlen
    rw [hq]
    have hperm := run_dispatch_perm mode (tasks_of (reduction_submissions 1000)) W hW
    have hres : reduction_result (fun _ => 1)
        (run_dispatch mode (tasks_of (reduction_submissions 1000)) W) =
        reduction_result (fun _ => 1) (tasks_of (reduction_submissions 1000)) := by
      unfold reduction_result
      exact (hperm.map _).sum_eq
    rw [hres]
    unfold reduction_result tasks_of
    rw [map_arg_tasks_from (fun r => reduction_task_sum (fun _ => 1) r) 0
      (reduction_submissions 1000)]
    rw [reduction_submissions, List.map_map]
    have hmapeq :
        ((reduction_ranges 1000 (1000 / 100) 0 1000).map
          ((fun x : ReductionTask × TaskWeight =>
              reduction_task_sum (fun _ => 1) x.1) ∘ fun r => (r, TaskWeight.TASK_LIGHT))) =
        (reduction_ranges 1000 (1000 / 100) 0 1000).map
          fun r => ((r.stop - r.start : Nat) : Int) := by
      apply List.map_congr_left
      intro r _
      exact reduction_task_sum_ones r
    rw [hmapeq]
    have hcast :
        ((reduction_ranges 1000 (1000 / 100) 0 1000).map
          fun r => ((r.stop - r.start : Nat) : Int)).sum =
        (((reduction_ranges 1000 (1000 / 100) 0 1000).map
          fun r => r.stop - r.start).sum : Nat) := by
      rw [Nat.cast_list_sum, List.map_map]
      rfl
    rw [hcast, reduction_ranges_sum 1000 (1000 / 100) hc 1000 0 (by omega)]
    norm_num

/-- Witness for Claim C9 at a concrete input: static mode with 3 workers. -/
theorem reduction_workload_total_witness :
    reduction_result (fun _ => 1)
      (run_dispatch ScheduleMode.SCHEDULE_STATIC
        (queue_tasks (submit_batch
          (scheduler_init ReductionTask 3 1000 ScheduleMode.SCHEDULE_STATIC)
          (reduction_submissions 1000)))
        3) = 1000 :=
  (reduction_workload_total ScheduleMode.SCHEDULE_STATIC 3 (by decide)).2.2

end MPPSched
